import Mathlib

/-!
Verification of the entity-index aggregation pipeline
(`data/index/abc_counter-personsplaces.py` of the abc-data repository).

The script scans TEI-XML files for `persName`/`placeName` occurrences and
emits, per entity key, a record with a canonical lemma, a type, per-file
counts, a total count and surface variations.  This file gives a shallow
embedding of that pipeline and proves the specified properties of it.

Modelling conventions:
* A `Token` stands for a descendant `<w>` element: `text` is its text node
  (`none` when the element has no text node) and `lemmaAttr` its `@lemma`
  attribute (`none` when absent).
* An `Occ` stands for one `persName`/`placeName` element: its `@key`
  attribute, its `@type` attribute and its descendant `<w>` elements in
  document order.
* Python dictionaries are modelled as insertion-ordered association lists;
  Python sets as duplicate-free lists (their iteration order is irrelevant
  here because every set is sorted before being emitted).
* `re.sub(r"\s+", " ", s).strip()` is modelled by a structural whitespace
  run collapse followed by stripping both ends.
* The pandas `sort_values` call realises the total order
  (TOTAL desc, lemma asc, key asc); with the deduplicated key index the
  sorted sequence is unique, so any sorting algorithm for that order is a
  faithful model and we use insertion sort.
-/

/-! ### Kernel-reducible string ordering -/

/-- Boolean lexicographic strict order on char lists, mirroring the
`List.Lex` order used for strings. -/
def charLtB : List Char → List Char → Bool
  | [], [] => false
  | [], _ :: _ => true
  | _ :: _, [] => false
  | a :: as, b :: bs => if a < b then true else if b < a then false else charLtB as bs

theorem charLtB_iff (as bs : List Char) :
    charLtB as bs = true ↔ List.Lex (· < ·) as bs := by
  induction as generalizing bs with
  | nil =>
    cases bs with
    | nil =>
      simp only [charLtB]
      constructor
      · intro h; cases h
      · intro h; cases h
    | cons b bs =>
      simp only [charLtB]
      exact ⟨fun _ => List.Lex.nil, fun _ => trivial⟩
  | cons a as ih =>
    cases bs with
    | nil =>
      simp only [charLtB]
      constructor
      · intro h; cases h
      · intro h; cases h
    | cons b bs =>
      simp only [charLtB]
      by_cases hab : a < b
      · simp only [if_pos hab]
        exact ⟨fun _ => List.Lex.rel hab, fun _ => trivial⟩
      · simp only [if_neg hab]
        by_cases hba : b < a
        · simp only [if_pos hba]
          constructor
          · intro h; cases h
          · intro h
            cases h with
            | rel h => exact absurd h hab
            | cons _ => exact absurd hba (lt_irrefl a)
        · simp only [if_neg hba]
          have heq : a = b := le_antisymm (not_lt.mp hba) (not_lt.mp hab)
          subst heq
          constructor
          · intro h; exact List.Lex.cons ((ih bs).mp h)
          · intro h
            cases h with
            | rel h => exact absurd h hab
            | cons h => exact (ih bs).mpr h

/-- Boolean strict order on strings, evaluating in the kernel. -/
def strLtB (a b : String) : Bool := charLtB a.data b.data

theorem strLtB_iff (a b : String) : strLtB a b = true ↔ a < b := by
  rw [String.lt_iff_toList_lt]
  exact charLtB_iff a.data b.data

/-- Boolean lax order on strings, evaluating in the kernel. -/
def strLeB (a b : String) : Bool := !(strLtB b a)

theorem strLeB_iff (a b : String) : strLeB a b = true ↔ a ≤ b := by
  unfold strLeB
  rw [Bool.not_eq_true', ← Bool.not_eq_true, strLtB_iff, not_lt]

instance (priority := 10000) : DecidableRel ((· < ·) : String → String → Prop) :=
  fun a b => decidable_of_iff (strLtB a b = true) (strLtB_iff a b)

instance (priority := 10000) : DecidableRel ((· ≤ ·) : String → String → Prop) :=
  fun a b => decidable_of_iff (strLeB a b = true) (strLeB_iff a b)

/-! ### String helpers of the script -/

/-- Joins a list of strings with single spaces, as `" ".join(...)` does. -/
def joinSp : List String → String
  | [] => ""
  | [s] => s
  | s :: s2 :: rest => s ++ " " ++ joinSp (s2 :: rest)

/-- Replaces every maximal whitespace run by a single space,
mirroring `re.sub(r"\s+", " ", s)`.  The flag records whether the
previous character belonged to a whitespace run. -/
def collapseAux : Bool → List Char → List Char
  | _, [] => []
  | prev, c :: cs =>
    if c.isWhitespace then
      if prev then collapseAux true cs else ' ' :: collapseAux true cs
    else c :: collapseAux false cs

/-- Removes leading and trailing whitespace, as `str.strip()` does. -/
def stripEnds (cs : List Char) : List Char :=
  ((cs.dropWhile Char.isWhitespace).reverse.dropWhile Char.isWhitespace).reverse

/-- Embeds `collapse_spaces`: collapse whitespace runs to single spaces and
trim both ends (`_space_re.sub(" ", s).strip()`). -/
def collapse_spaces (s : String) : String :=
  String.mk (stripEnds (collapseAux false s.data))

/-- Removes occurrences of `"(span) "` in one left-to-right pass,
as the Python `s.replace("(span) ", "")` does: at each position the
pattern is either consumed whole or the single head character is kept. -/
def removeSpan : List Char → List Char
  | '(' :: 's' :: 'p' :: 'a' :: 'n' :: ')' :: ' ' :: rest => removeSpan rest
  | c :: rest => c :: removeSpan rest
  | [] => []

/-- Embeds `clean_lemma`: drop `"(span) "` occurrences from a lemma string. -/
def clean_lemma (s : String) : String := String.mk (removeSpan s.data)

/-! ### Data model -/

/-- A descendant `<w>` element of an entity occurrence. -/
structure Token where
  text : Option String
  lemmaAttr : Option String
deriving DecidableEq

/-- One `persName`/`placeName` element hit. -/
structure Occ where
  key : Option String
  type : Option String
  tokens : List Token
deriving DecidableEq

/-- One input file restricted to the hits of a single kind. -/
structure SourceFile where
  name : String
  occs : List Occ
deriving DecidableEq

/-! ### Lemma and surface builders -/

/-- Values of non-empty `@lemma` attributes of the occurrence's `<w>`
descendants: `[w.get("lemma") for w in w_nodes if w.get("lemma")]`. -/
def wLemmaVals (el : Occ) : List String :=
  el.tokens.filterMap fun w =>
    match w.lemmaAttr with
    | some s => if s = "" then none else some s
    | none => none

/-- Text nodes of the occurrence's `<w>` descendants
(the `.//w/text()` XPath result). -/
def wTextVals (el : Occ) : List String :=
  el.tokens.filterMap fun w => w.text

/-- Embeds `build_lemma_from_w`: prefer the joined non-empty `@lemma`
attributes, fall back to the joined `<w>` text nodes, else the empty
string. -/
def build_lemma_from_w (el : Occ) : String :=
  if wLemmaVals el ≠ [] then collapse_spaces (joinSp (wLemmaVals el))
  else if wTextVals el ≠ [] then collapse_spaces (joinSp (wTextVals el))
  else ""

/-- Embeds `surface_from_w`: the joined `<w>` text nodes, or the empty
string when there are none. -/
def surface_from_w (el : Occ) : String :=
  if wTextVals el = [] then "" else collapse_spaces (joinSp (wTextVals el))

/-! ### Per-file scan (`count_keys_in_file`) -/

/-- Lookup in an insertion-ordered association list (Python `dict.get`). -/
def alookup {α : Type} : List (String × α) → String → Option α
  | [], _ => none
  | p :: rest, k => if p.1 = k then some p.2 else alookup rest k

/-- Increments a counter entry (`Counter[key] += 1`). -/
def bump : List (String × Nat) → String → List (String × Nat)
  | [], k => [(k, 1)]
  | p :: rest, k => if p.1 = k then (p.1, p.2 + 1) :: rest else p :: bump rest k

/-- Adds an element to a set modelled as a duplicate-free list. -/
def addVar (vs : List String) (v : String) : List String :=
  if v ∈ vs then vs else vs ++ [v]

/-- Adds a surface form to the per-key variation-set map
(`local_variations[key].add(surface)`). -/
def addVarMap : List (String × List String) → String → String → List (String × List String)
  | [], k, v => [(k, [v])]
  | p :: rest, k, v =>
    if p.1 = k then (p.1, addVar p.2 v) :: rest else p :: addVarMap rest k v

/-- The four per-file accumulators of `count_keys_in_file`. -/
structure ScanResult where
  counts : List (String × Nat)
  key_to_lemma : List (String × String)
  variations : List (String × List String)
  key_to_type : List (String × String)
deriving DecidableEq

/-- One step of the `for el in hits` loop of `count_keys_in_file`. -/
def scanOcc (st : ScanResult) (el : Occ) : ScanResult :=
  match el.key with
  | none => st
  | some key =>
    if key = "" then st
    else
      let counts := bump st.counts key
      let lem := build_lemma_from_w el
      let key_to_lemma :=
        if alookup st.key_to_lemma key = none ∧ lem ≠ "" then
          st.key_to_lemma ++ [(key, lem)]
        else st.key_to_lemma
      let surface := surface_from_w el
      let variations :=
        if surface ≠ "" then addVarMap st.variations key surface else st.variations
      let key_to_type :=
        match el.type with
        | some t =>
          if t ≠ "" ∧ alookup st.key_to_type key = none then
            st.key_to_type ++ [(key, t)]
          else st.key_to_type
        | none => st.key_to_type
      ⟨counts, key_to_lemma, variations, key_to_type⟩

/-- Embeds `count_keys_in_file` for the hits of one kind in one file. -/
def count_keys_in_file (occs : List Occ) : ScanResult :=
  occs.foldl scanOcc ⟨[], [], [], []⟩

/-! ### Corpus-wide aggregation (the per-file loop of `main`) -/

/-- The four corpus-wide accumulators of `main` for one kind. -/
structure GlobalAcc where
  per_file_counts : List (String × List (String × Nat))
  key_to_lemma : List (String × String)
  key_to_variations : List (String × List String)
  key_to_type : List (String × String)
deriving DecidableEq

/-- First-seen merge of a per-file map into the global map
(`if k not in global and v: global[k] = v`). -/
def mergeFirst (g loc : List (String × String)) : List (String × String) :=
  loc.foldl (fun m p => if alookup m p.1 = none ∧ p.2 ≠ "" then m ++ [p] else m) g

/-- Union of the per-file variation sets into the global map
(`key_to_variations[k].update(vs)`). -/
def mergeVars (g loc : List (String × List String)) : List (String × List String) :=
  loc.foldl (fun m p => p.2.foldl (fun m2 v => addVarMap m2 p.1 v) m) g

/-- One iteration of the `for f in files` loop of `main`, for one kind. -/
def processFile (g : GlobalAcc) (f : SourceFile) : GlobalAcc :=
  let r := count_keys_in_file f.occs
  ⟨g.per_file_counts ++ [(f.name, r.counts)],
   mergeFirst g.key_to_lemma r.key_to_lemma,
   mergeVars g.key_to_variations r.variations,
   mergeFirst g.key_to_type r.key_to_type⟩

/-- The whole collection loop of `main` for one kind. -/
def aggregate (files : List SourceFile) : GlobalAcc :=
  files.foldl processFile ⟨[], [], [], []⟩

/-! ### Record assembly (`assemble_records`) -/

/-- An output record (one JSON object of the emitted index). -/
structure EntityRecord where
  key : String
  lemmaStr : String
  type : String
  TOTAL : Nat
  files : List (String × Nat)
  variations : List String
deriving DecidableEq

/-- Count of `k` in file `fname` in the sparse per-file table, defaulting
to zero exactly as the reindex/fillna step does. -/
def cnt (pfc : List (String × List (String × Nat))) (fname k : String) : Nat :=
  match alookup pfc fname with
  | some c => (alookup c k).getD 0
  | none => 0

/-- Sorts strings ascending (Python `sorted`). -/
def sortStrings (l : List String) : List String :=
  List.insertionSort (· ≤ ·) l

/-- The order realised by `sort_values(by=["TOTAL", "lemma", "key"],
ascending=[False, True, True])`. -/
def recordLE (a b : EntityRecord) : Prop :=
  b.TOTAL < a.TOTAL ∨
    (a.TOTAL = b.TOTAL ∧
      (a.lemmaStr < b.lemmaStr ∨ (a.lemmaStr = b.lemmaStr ∧ a.key ≤ b.key)))

instance : DecidableRel recordLE := fun a b => by
  unfold recordLE; infer_instance

/-- The set of keys appearing in any per-file counter (`all_keys`). -/
def keysFrom (g : GlobalAcc) : List String :=
  (g.per_file_counts.flatMap fun p => p.2.map (·.1)).dedup

/-- The record built for one key from the aggregated state: the row
construction of `assemble_records`. -/
def mkRecord (fileNames : List String) (g : GlobalAcc) (k : String) : EntityRecord :=
  ⟨k,
   match alookup g.key_to_lemma k with
   | some l => clean_lemma l
   | none => "",
   (alookup g.key_to_type k).getD "",
   (fileNames.map fun fn => cnt g.per_file_counts fn k).sum,
   fileNames.filterMap fun fn =>
     if 0 < cnt g.per_file_counts fn k then some (fn, cnt g.per_file_counts fn k) else none,
   sortStrings ((alookup g.key_to_variations k).getD [])⟩

/-- Embeds `assemble_records` for one kind. -/
def assemble_records (files : List SourceFile) (g : GlobalAcc) : List EntityRecord :=
  if keysFrom g = [] then []
  else
    List.insertionSort recordLE
      ((sortStrings (keysFrom g)).map (mkRecord (files.map (·.name)) g))

/-- The whole per-kind pipeline: aggregate all files, then assemble. -/
def pipelineFor (files : List SourceFile) : List EntityRecord :=
  assemble_records files (aggregate files)

/-! ### The two-kind run (`main`) -/

/-- One input XML file, carrying the hits of both kinds. -/
structure XmlFile where
  name : String
  persNames : List Occ
  placeNames : List Occ
deriving DecidableEq

/-- File order used by `sorted(XML_DIR.glob(GLOB))`. -/
def fileLE (a b : XmlFile) : Prop := a.name ≤ b.name

instance : DecidableRel fileLE := fun a b => by
  unfold fileLE; infer_instance

/-- Sorts the discovered files name-ascending before processing. -/
def sortFiles (files : List XmlFile) : List XmlFile :=
  List.insertionSort fileLE files

/-- Embeds `main` after discovery: sort the files, then run the persons
pipeline and the places pipeline. -/
def runAll (files : List XmlFile) : List EntityRecord × List EntityRecord :=
  (pipelineFor ((sortFiles files).map fun f => ⟨f.name, f.persNames⟩),
   pipelineFor ((sortFiles files).map fun f => ⟨f.name, f.placeNames⟩))

example :
    pipelineFor [⟨"a.xml", [⟨some "k1", some "noble",
      [⟨some "Karl", some "Carolus"⟩]⟩]⟩]
      = [⟨"k1", "Carolus", "noble", 1, [("a.xml", 1)], ["Karl"]⟩] := by decide

/-! ### Helper lemmas: lookups and first-non-empty selections -/

theorem alookup_append {α : Type} (m1 m2 : List (String × α)) (k : String) :
    alookup (m1 ++ m2) k = Option.or (alookup m1 k) (alookup m2 k) := by
  induction m1 with
  | nil => simp [alookup]
  | cons p rest ih =>
    by_cases h : p.1 = k
    · simp [alookup, h]
    · simp [alookup, h, ih]

theorem alookup_singleton {α : Type} (k2 : String) (v : α) (k : String) :
    alookup [(k2, v)] k = if k2 = k then some v else none := by
  by_cases h : k2 = k <;> simp [alookup, h]

/-- First non-empty string of a list (`none` when there is none). -/
def firstNonEmpty (l : List String) : Option String :=
  l.find? fun s => decide (s ≠ "")

theorem firstNonEmpty_nil : firstNonEmpty [] = none := rfl

theorem firstNonEmpty_cons_empty (l : List String) :
    firstNonEmpty ("" :: l) = firstNonEmpty l := by
  simp [firstNonEmpty]

theorem firstNonEmpty_cons_ne (s : String) (l : List String) (h : s ≠ "") :
    firstNonEmpty (s :: l) = some s := by
  simp [firstNonEmpty, List.find?_cons_of_pos, h]

theorem firstNonEmpty_append (l1 l2 : List String) :
    firstNonEmpty (l1 ++ l2) = Option.or (firstNonEmpty l1) (firstNonEmpty l2) := by
  simp [firstNonEmpty, List.find?_append]

theorem firstNonEmpty_mem (l : List String) (s : String) (h : firstNonEmpty l = some s) :
    s ∈ l ∧ s ≠ "" := by
  have h1 := List.find?_some h
  have h2 := List.mem_of_find?_eq_some h
  simp only [decide_eq_true_eq] at h1
  exact ⟨h2, h1⟩

/-! ### Per-occurrence candidate lists (spec-side order of derivation) -/

/-- Lemma candidates contributed for key `k` by a sequence of occurrences,
in occurrence order. -/
def lemmaCands (occs : List Occ) (k : String) : List String :=
  (occs.filter fun o => decide (o.key = some k)).map build_lemma_from_w

/-- Type-attribute candidates contributed for key `k` by a sequence of
occurrences, in occurrence order (absent attributes are skipped). -/
def typeCands (occs : List Occ) (k : String) : List String :=
  (occs.filter fun o => decide (o.key = some k)).filterMap (·.type)

theorem lemmaCands_cons_skip (o : Occ) (rest : List Occ) (k : String)
    (h : o.key ≠ some k) : lemmaCands (o :: rest) k = lemmaCands rest k := by
  simp [lemmaCands, List.filter_cons, h]

theorem lemmaCands_cons_keep (o : Occ) (rest : List Occ) (k : String)
    (h : o.key = some k) :
    lemmaCands (o :: rest) k = build_lemma_from_w o :: lemmaCands rest k := by
  simp [lemmaCands, List.filter_cons, h]

theorem typeCands_cons_skip (o : Occ) (rest : List Occ) (k : String)
    (h : o.key ≠ some k) : typeCands (o :: rest) k = typeCands rest k := by
  simp [typeCands, List.filter_cons, h]

theorem typeCands_cons_keep_none (o : Occ) (rest : List Occ) (k : String)
    (h : o.key = some k) (ht : o.type = none) :
    typeCands (o :: rest) k = typeCands rest k := by
  simp [typeCands, List.filter_cons, h, List.filterMap_cons, ht]

theorem typeCands_cons_keep_some (o : Occ) (rest : List Occ) (k t : String)
    (h : o.key = some k) (ht : o.type = some t) :
    typeCands (o :: rest) k = t :: typeCands rest k := by
  simp [typeCands, List.filter_cons, h, List.filterMap_cons, ht]

theorem lemmaCands_append (l1 l2 : List Occ) (k : String) :
    lemmaCands (l1 ++ l2) k = lemmaCands l1 k ++ lemmaCands l2 k := by
  simp [lemmaCands, List.filter_append]

theorem typeCands_append (l1 l2 : List Occ) (k : String) :
    typeCands (l1 ++ l2) k = typeCands l1 k ++ typeCands l2 k := by
  simp [typeCands, List.filter_append]

/-! ### Case lemmas for one scan step -/

theorem scanOcc_none (st : ScanResult) (el : Occ) (h : el.key = none) :
    scanOcc st el = st := by
  unfold scanOcc; rw [h]

theorem scanOcc_some_empty (st : ScanResult) (el : Occ) (h : el.key = some "") :
    scanOcc st el = st := by
  unfold scanOcc; rw [h]; simp

theorem scanOcc_some (st : ScanResult) (el : Occ) (k : String)
    (hk : el.key = some k) (hne : ¬ k = "") :
    scanOcc st el =
      ⟨bump st.counts k,
       if alookup st.key_to_lemma k = none ∧ build_lemma_from_w el ≠ "" then
         st.key_to_lemma ++ [(k, build_lemma_from_w el)]
       else st.key_to_lemma,
       if surface_from_w el ≠ "" then addVarMap st.variations k (surface_from_w el)
       else st.variations,
       match el.type with
       | some t =>
         if t ≠ "" ∧ alookup st.key_to_type k = none then st.key_to_type ++ [(k, t)]
         else st.key_to_type
       | none => st.key_to_type⟩ := by
  unfold scanOcc; rw [hk]; simp [hne]

theorem scanOcc_some_type_none (st : ScanResult) (el : Occ) (k : String)
    (hk : el.key = some k) (hne : ¬ k = "") (ht : el.type = none) :
    scanOcc st el =
      ⟨bump st.counts k,
       if alookup st.key_to_lemma k = none ∧ build_lemma_from_w el ≠ "" then
         st.key_to_lemma ++ [(k, build_lemma_from_w el)]
       else st.key_to_lemma,
       if surface_from_w el ≠ "" then addVarMap st.variations k (surface_from_w el)
       else st.variations,
       st.key_to_type⟩ := by
  rw [scanOcc_some st el k hk hne, ht]

theorem scanOcc_some_type_some (st : ScanResult) (el : Occ) (k t : String)
    (hk : el.key = some k) (hne : ¬ k = "") (ht : el.type = some t) :
    scanOcc st el =
      ⟨bump st.counts k,
       if alookup st.key_to_lemma k = none ∧ build_lemma_from_w el ≠ "" then
         st.key_to_lemma ++ [(k, build_lemma_from_w el)]
       else st.key_to_lemma,
       if surface_from_w el ≠ "" then addVarMap st.variations k (surface_from_w el)
       else st.variations,
       if t ≠ "" ∧ alookup st.key_to_type k = none then st.key_to_type ++ [(k, t)]
       else st.key_to_type⟩ := by
  rw [scanOcc_some st el k hk hne, ht]

/-! ### The per-file scan resolves first non-empty candidates -/

theorem foldl_scan_key_to_lemma (occs : List Occ) (st : ScanResult) (k : String)
    (hk : k ≠ "") :
    alookup (occs.foldl scanOcc st).key_to_lemma k
      = Option.or (alookup st.key_to_lemma k) (firstNonEmpty (lemmaCands occs k)) := by
  induction occs generalizing st with
  | nil => simp [lemmaCands, firstNonEmpty]
  | cons o rest ih =>
    rw [List.foldl_cons]
    cases ho : o.key with
    | none =>
      rw [scanOcc_none st o ho, lemmaCands_cons_skip o rest k (by simp [ho]), ih]
    | some key2 =>
      by_cases hke : key2 = ""
      · subst hke
        rw [scanOcc_some_empty st o ho,
          lemmaCands_cons_skip o rest k (by simp [ho, Ne.symm hk]), ih]
      · by_cases hkk : key2 = k
        · subst hkk
          rw [scanOcc_some st o key2 ho hke,
            lemmaCands_cons_keep o rest key2 ho, ih]
          by_cases hcond : alookup st.key_to_lemma key2 = none ∧ build_lemma_from_w o ≠ ""
          · rw [if_pos hcond, alookup_append, alookup_singleton, if_pos rfl,
              hcond.1, firstNonEmpty_cons_ne _ _ hcond.2]
            rfl
          · simp only [if_neg hcond]
            cases hal : alookup st.key_to_lemma key2 with
            | some w => rfl
            | none =>
              have hbe : build_lemma_from_w o = "" := by
                by_contra hne2
                exact hcond ⟨hal, hne2⟩
              rw [hbe, firstNonEmpty_cons_empty]
        · rw [scanOcc_some st o key2 ho hke,
            lemmaCands_cons_skip o rest k (by simp [ho, hkk])]
          have halt :
              alookup (if alookup st.key_to_lemma key2 = none ∧ build_lemma_from_w o ≠ "" then
                  st.key_to_lemma ++ [(key2, build_lemma_from_w o)]
                else st.key_to_lemma) k = alookup st.key_to_lemma k := by
            split
            · rw [alookup_append, alookup_singleton, if_neg hkk]
              cases alookup st.key_to_lemma k <;> rfl
            · rfl
          rw [ih, halt]

theorem foldl_scan_key_to_type (occs : List Occ) (st : ScanResult) (k : String)
    (hk : k ≠ "") :
    alookup (occs.foldl scanOcc st).key_to_type k
      = Option.or (alookup st.key_to_type k) (firstNonEmpty (typeCands occs k)) := by
  induction occs generalizing st with
  | nil => simp [typeCands, firstNonEmpty]
  | cons o rest ih =>
    rw [List.foldl_cons]
    cases ho : o.key with
    | none =>
      rw [scanOcc_none st o ho, typeCands_cons_skip o rest k (by simp [ho]), ih]
    | some key2 =>
      by_cases hke : key2 = ""
      · subst hke
        rw [scanOcc_some_empty st o ho,
          typeCands_cons_skip o rest k (by simp [ho, Ne.symm hk]), ih]
      · by_cases hkk : key2 = k
        · subst hkk
          cases hot : o.type with
          | none =>
            rw [scanOcc_some_type_none st o key2 ho hke hot, ih,
              typeCands_cons_keep_none o rest key2 ho hot]
          | some t =>
            rw [scanOcc_some_type_some st o key2 t ho hke hot, ih,
              typeCands_cons_keep_some o rest key2 t ho hot]
            by_cases hcond : t ≠ "" ∧ alookup st.key_to_type key2 = none
            · rw [if_pos hcond, alookup_append, alookup_singleton, if_pos rfl,
                hcond.2, firstNonEmpty_cons_ne _ _ hcond.1]
              rfl
            · simp only [if_neg hcond]
              cases hal : alookup st.key_to_type key2 with
              | some w => rfl
              | none =>
                have hte : t = "" := by
                  by_contra hne2
                  exact hcond ⟨hne2, hal⟩
                rw [hte, firstNonEmpty_cons_empty]
        · rw [typeCands_cons_skip o rest k (by simp [ho, hkk])]
          cases hot : o.type with
          | none => rw [scanOcc_some_type_none st o key2 ho hke hot, ih]
          | some t =>
            rw [scanOcc_some_type_some st o key2 t ho hke hot, ih]
            have halt :
                alookup (if t ≠ "" ∧ alookup st.key_to_type key2 = none then
                    st.key_to_type ++ [(key2, t)]
                  else st.key_to_type) k = alookup st.key_to_type k := by
              split
              · rw [alookup_append, alookup_singleton, if_neg hkk]
                cases alookup st.key_to_type k <;> rfl
              · rfl
            rw [halt]

theorem count_keys_key_to_lemma (occs : List Occ) (k : String) (hk : k ≠ "") :
    alookup (count_keys_in_file occs).key_to_lemma k
      = firstNonEmpty (lemmaCands occs k) := by
  unfold count_keys_in_file
  rw [foldl_scan_key_to_lemma occs ⟨[], [], [], []⟩ k hk]
  rfl

theorem count_keys_key_to_type (occs : List Occ) (k : String) (hk : k ≠ "") :
    alookup (count_keys_in_file occs).key_to_type k
      = firstNonEmpty (typeCands occs k) := by
  unfold count_keys_in_file
  rw [foldl_scan_key_to_type occs ⟨[], [], [], []⟩ k hk]
  rfl

/-! ### Global first-seen merge -/

theorem mergeFirst_cons (g : List (String × String)) (p : String × String)
    (rest : List (String × String)) :
    mergeFirst g (p :: rest)
      = mergeFirst (if alookup g p.1 = none ∧ p.2 ≠ "" then g ++ [p] else g) rest := rfl

theorem alookup_mergeFirst (loc g : List (String × String)) (k : String) :
    alookup (mergeFirst g loc) k
      = Option.or (alookup g k)
          (firstNonEmpty ((loc.filter fun p => decide (p.1 = k)).map (·.2))) := by
  induction loc generalizing g with
  | nil =>
    have hmf : mergeFirst g [] = g := rfl
    rw [hmf]
    simp only [List.filter_nil, List.map_nil, firstNonEmpty_nil]
    cases alookup g k <;> rfl
  | cons p rest ih =>
    by_cases hpk : p.1 = k
    · by_cases hcond : alookup g p.1 = none ∧ p.2 ≠ ""
      · rw [mergeFirst_cons, if_pos hcond, ih, alookup_append, alookup_singleton,
          if_pos hpk]
        have hgk : alookup g k = none := by rw [← hpk]; exact hcond.1
        simp [List.filter_cons, hpk, hgk, firstNonEmpty_cons_ne _ _ hcond.2]
      · rw [mergeFirst_cons, if_neg hcond, ih]
        simp only [List.filter_cons, hpk, decide_True, if_true, List.map_cons]
        cases hal : alookup g k with
        | some w => rfl
        | none =>
          have hpe : p.2 = "" := by
            by_contra hne2
            rw [hpk] at hcond
            exact hcond ⟨hal, hne2⟩
          simp [hpe, firstNonEmpty_cons_empty]
    · have hstep :
          alookup (if alookup g p.1 = none ∧ p.2 ≠ "" then g ++ [p] else g) k
            = alookup g k := by
        split
        · rw [alookup_append, alookup_singleton, if_neg hpk]
          cases alookup g k <;> rfl
        · rfl
      rw [mergeFirst_cons, ih, hstep]
      simp [List.filter_cons, hpk]

/-! ### Values stored in the first-seen maps are never empty -/

theorem scanOcc_k2l_vals (st : ScanResult) (o : Occ)
    (h : ∀ p ∈ st.key_to_lemma, p.2 ≠ "") :
    ∀ p ∈ (scanOcc st o).key_to_lemma, p.2 ≠ "" := by
  cases ho : o.key with
  | none => rw [scanOcc_none st o ho]; exact h
  | some key2 =>
    by_cases hke : key2 = ""
    · subst hke; rw [scanOcc_some_empty st o ho]; exact h
    · rw [scanOcc_some st o key2 ho hke]
      simp only
      split
      · rename_i hcond
        intro p hp
        rcases List.mem_append.mp hp with hp1 | hp2
        · exact h p hp1
        · rcases List.mem_singleton.mp hp2 with rfl
          exact hcond.2
      · exact h

theorem scanOcc_k2t_vals (st : ScanResult) (o : Occ)
    (h : ∀ p ∈ st.key_to_type, p.2 ≠ "") :
    ∀ p ∈ (scanOcc st o).key_to_type, p.2 ≠ "" := by
  cases ho : o.key with
  | none => rw [scanOcc_none st o ho]; exact h
  | some key2 =>
    by_cases hke : key2 = ""
    · subst hke; rw [scanOcc_some_empty st o ho]; exact h
    · cases hot : o.type with
      | none => rw [scanOcc_some_type_none st o key2 ho hke hot]; exact h
      | some t =>
        rw [scanOcc_some_type_some st o key2 t ho hke hot]
        simp only
        split
        · rename_i hcond
          intro p hp
          rcases List.mem_append.mp hp with hp1 | hp2
          · exact h p hp1
          · rcases List.mem_singleton.mp hp2 with rfl
            exact hcond.1
        · exact h

theorem count_keys_k2l_vals (occs : List Occ) :
    ∀ p ∈ (count_keys_in_file occs).key_to_lemma, p.2 ≠ "" := by
  unfold count_keys_in_file
  generalize hst : (⟨[], [], [], []⟩ : ScanResult) = st
  have h0 : ∀ p ∈ st.key_to_lemma, p.2 ≠ "" := by
    rw [← hst]; intro p hp; cases hp
  clear hst
  induction occs generalizing st with
  | nil => exact h0
  | cons o rest ih => exact ih (scanOcc st o) (scanOcc_k2l_vals st o h0)

theorem count_keys_k2t_vals (occs : List Occ) :
    ∀ p ∈ (count_keys_in_file occs).key_to_type, p.2 ≠ "" := by
  unfold count_keys_in_file
  generalize hst : (⟨[], [], [], []⟩ : ScanResult) = st
  have h0 : ∀ p ∈ st.key_to_type, p.2 ≠ "" := by
    rw [← hst]; intro p hp; cases hp
  clear hst
  induction occs generalizing st with
  | nil => exact h0
  | cons o rest ih => exact ih (scanOcc st o) (scanOcc_k2t_vals st o h0)

/-! ### Linking a local map to its candidate list -/

theorem firstNonEmpty_eq_head (l : List String) (h : ∀ s ∈ l, s ≠ "") :
    firstNonEmpty l = l.head? := by
  cases l with
  | nil => rfl
  | cons s rest =>
    rw [firstNonEmpty_cons_ne s rest (h s (List.mem_cons_self s rest))]
    rfl

theorem alookup_eq_head_filter {α : Type} (m : List (String × α)) (k : String) :
    alookup m k = ((m.filter fun p => decide (p.1 = k)).map (·.2)).head? := by
  induction m with
  | nil => rfl
  | cons p rest ih =>
    by_cases h : p.1 = k <;> simp [alookup, List.filter_cons, h, ih]

theorem localVals_firstNonEmpty (m : List (String × String)) (k : String)
    (h : ∀ p ∈ m, p.2 ≠ "") :
    firstNonEmpty ((m.filter fun p => decide (p.1 = k)).map (·.2)) = alookup m k := by
  rw [alookup_eq_head_filter, firstNonEmpty_eq_head]
  intro s hs
  rcases List.mem_map.mp hs with ⟨p, hp, rfl⟩
  exact h p (List.mem_of_mem_filter hp)

/-! ### Corpus-level resolution of lemma and type -/

theorem processFile_lookup_lemma (g : GlobalAcc) (f : SourceFile) (k : String)
    (hk : k ≠ "") :
    alookup (processFile g f).key_to_lemma k
      = Option.or (alookup g.key_to_lemma k) (firstNonEmpty (lemmaCands f.occs k)) := by
  show alookup (mergeFirst g.key_to_lemma (count_keys_in_file f.occs).key_to_lemma) k = _
  rw [alookup_mergeFirst,
    localVals_firstNonEmpty _ k (count_keys_k2l_vals f.occs),
    count_keys_key_to_lemma f.occs k hk]

theorem processFile_lookup_type (g : GlobalAcc) (f : SourceFile) (k : String)
    (hk : k ≠ "") :
    alookup (processFile g f).key_to_type k
      = Option.or (alookup g.key_to_type k) (firstNonEmpty (typeCands f.occs k)) := by
  show alookup (mergeFirst g.key_to_type (count_keys_in_file f.occs).key_to_type) k = _
  rw [alookup_mergeFirst,
    localVals_firstNonEmpty _ k (count_keys_k2t_vals f.occs),
    count_keys_key_to_type f.occs k hk]

theorem foldl_process_key_to_lemma (files : List SourceFile) (g : GlobalAcc)
    (k : String) (hk : k ≠ "") :
    alookup (files.foldl processFile g).key_to_lemma k
      = Option.or (alookup g.key_to_lemma k)
          (firstNonEmpty (lemmaCands (files.flatMap (·.occs)) k)) := by
  induction files generalizing g with
  | nil =>
    simp only [List.foldl_nil, List.flatMap_nil]
    cases alookup g.key_to_lemma k <;> rfl
  | cons f fs ih =>
    rw [List.foldl_cons, ih (processFile g f), processFile_lookup_lemma g f k hk,
      List.flatMap_cons, lemmaCands_append, firstNonEmpty_append, Option.or_assoc]

theorem foldl_process_key_to_type (files : List SourceFile) (g : GlobalAcc)
    (k : String) (hk : k ≠ "") :
    alookup (files.foldl processFile g).key_to_type k
      = Option.or (alookup g.key_to_type k)
          (firstNonEmpty (typeCands (files.flatMap (·.occs)) k)) := by
  induction files generalizing g with
  | nil =>
    simp only [List.foldl_nil, List.flatMap_nil]
    cases alookup g.key_to_type k <;> rfl
  | cons f fs ih =>
    rw [List.foldl_cons, ih (processFile g f), processFile_lookup_type g f k hk,
      List.flatMap_cons, typeCands_append, firstNonEmpty_append, Option.or_assoc]

/-- Resolved lemma of a key: the first non-empty per-occurrence lemma
candidate in file-ascending processing order. -/
def lemmaResolved (files : List SourceFile) (k : String) : Option String :=
  firstNonEmpty (lemmaCands (files.flatMap (·.occs)) k)

/-- First non-empty type attribute among the key's occurrences of a single
document, in occurrence order (the local phase of type resolution). -/
def localTypeFirst (occs : List Occ) (k : String) : Option String :=
  firstNonEmpty (typeCands occs k)

/-- Two-phase resolved type of a key: the local value of the first document
(in processing order) that supplies a non-empty type. -/
def typeResolvedTwoPhase (files : List SourceFile) (k : String) : Option String :=
  (files.filterMap fun f => localTypeFirst f.occs k).head?

theorem aggregate_key_to_lemma (files : List SourceFile) (k : String) (hk : k ≠ "") :
    alookup (aggregate files).key_to_lemma k = lemmaResolved files k := by
  unfold aggregate lemmaResolved
  rw [foldl_process_key_to_lemma files ⟨[], [], [], []⟩ k hk]
  rfl

theorem flat_type_eq_twoPhase (files : List SourceFile) (k : String) :
    firstNonEmpty (typeCands (files.flatMap (·.occs)) k)
      = typeResolvedTwoPhase files k := by
  unfold typeResolvedTwoPhase
  induction files with
  | nil => rfl
  | cons f fs ih =>
    rw [List.flatMap_cons, typeCands_append, firstNonEmpty_append, ih,
      List.filterMap_cons]
    cases h : localTypeFirst f.occs k with
    | none =>
      unfold localTypeFirst at h
      rw [h]
      rfl
    | some t =>
      unfold localTypeFirst at h
      rw [h]
      rfl

theorem aggregate_key_to_type (files : List SourceFile) (k : String) (hk : k ≠ "") :
    alookup (aggregate files).key_to_type k = typeResolvedTwoPhase files k := by
  unfold aggregate
  rw [foldl_process_key_to_type files ⟨[], [], [], []⟩ k hk,
    ← flat_type_eq_twoPhase]
  rfl

/-! ### Keys stored in the counters are never empty -/

theorem bump_keys (m : List (String × Nat)) (k : String) (q : String × Nat)
    (hq : q ∈ bump m k) : q.1 = k ∨ q ∈ m := by
  induction m with
  | nil =>
    rcases List.mem_singleton.mp hq with rfl
    exact Or.inl rfl
  | cons p rest ih =>
    by_cases h : p.1 = k
    · rw [bump, if_pos h] at hq
      rcases List.mem_cons.mp hq with rfl | hq2
      · exact Or.inl h
      · exact Or.inr (List.mem_cons_of_mem p hq2)
    · rw [bump, if_neg h] at hq
      rcases List.mem_cons.mp hq with rfl | hq2
      · exact Or.inr (List.mem_cons_self _ _)
      · rcases ih hq2 with h3 | h3
        · exact Or.inl h3
        · exact Or.inr (List.mem_cons_of_mem p h3)

theorem scanOcc_counts_keys (st : ScanResult) (o : Occ)
    (h : ∀ q ∈ st.counts, q.1 ≠ "") : ∀ q ∈ (scanOcc st o).counts, q.1 ≠ "" := by
  cases ho : o.key with
  | none => rw [scanOcc_none st o ho]; exact h
  | some key2 =>
    by_cases hke : key2 = ""
    · subst hke; rw [scanOcc_some_empty st o ho]; exact h
    · rw [scanOcc_some st o key2 ho hke]
      intro q hq
      rcases bump_keys st.counts key2 q hq with h2 | h2
      · rw [h2]; exact hke
      · exact h q h2

theorem count_keys_counts_keys (occs : List Occ) :
    ∀ q ∈ (count_keys_in_file occs).counts, q.1 ≠ "" := by
  unfold count_keys_in_file
  generalize hst : (⟨[], [], [], []⟩ : ScanResult) = st
  have h0 : ∀ q ∈ st.counts, q.1 ≠ "" := by
    rw [← hst]; intro q hq; cases hq
  clear hst
  induction occs generalizing st with
  | nil => exact h0
  | cons o rest ih => exact ih (scanOcc st o) (scanOcc_counts_keys st o h0)

theorem processFile_per_file_counts (g : GlobalAcc) (f : SourceFile) :
    (processFile g f).per_file_counts
      = g.per_file_counts ++ [(f.name, (count_keys_in_file f.occs).counts)] := rfl

theorem aggregate_counts_keys (files : List SourceFile) :
    ∀ p ∈ (aggregate files).per_file_counts, ∀ q ∈ p.2, q.1 ≠ "" := by
  unfold aggregate
  generalize hg : (⟨[], [], [], []⟩ : GlobalAcc) = g
  have h0 : ∀ p ∈ g.per_file_counts, ∀ q ∈ p.2, q.1 ≠ "" := by
    rw [← hg]; intro p hp; cases hp
  clear hg
  induction files generalizing g with
  | nil => exact h0
  | cons f fs ih =>
    rw [List.foldl_cons]
    refine ih (processFile g f) ?_
    rw [processFile_per_file_counts]
    intro p hp
    rcases List.mem_append.mp hp with hp1 | hp2
    · exact h0 p hp1
    · rcases List.mem_singleton.mp hp2 with rfl
      exact count_keys_counts_keys f.occs

theorem keysFrom_ne_empty (files : List SourceFile) (k : String)
    (hk : k ∈ keysFrom (aggregate files)) : k ≠ "" := by
  unfold keysFrom at hk
  rcases List.mem_flatMap.mp (List.mem_dedup.mp hk) with ⟨p, hp, hkp⟩
  rcases List.mem_map.mp hkp with ⟨q, hq, rfl⟩
  exact aggregate_counts_keys files p hp q hq

/-! ### Decomposing membership in the emitted record list -/

theorem mem_pipelineFor {files : List SourceFile} {r : EntityRecord}
    (h : r ∈ pipelineFor files) :
    ∃ k, k ∈ keysFrom (aggregate files)
      ∧ r = mkRecord (files.map (·.name)) (aggregate files) k := by
  unfold pipelineFor assemble_records at h
  by_cases hk : keysFrom (aggregate files) = []
  · rw [if_pos hk] at h; cases h
  · rw [if_neg hk] at h
    have h2 := (List.perm_insertionSort recordLE _).mem_iff.mp h
    rcases List.mem_map.mp h2 with ⟨k, hkmem, rfl⟩
    unfold sortStrings at hkmem
    exact ⟨k, (List.perm_insertionSort _ _).mem_iff.mp hkmem, rfl⟩

theorem mkRecord_key (fns : List String) (g : GlobalAcc) (k : String) :
    (mkRecord fns g k).key = k := rfl

/-! ### TOTAL versus the nonzero per-file breakdown -/

theorem sum_filterMap_counts (l : List String) (F : String → Nat) :
    ((l.filterMap fun fn => if 0 < F fn then some (fn, F fn) else none).map
      (·.2)).sum = (l.map F).sum := by
  induction l with
  | nil => rfl
  | cons fn rest ih =>
    by_cases h : 0 < F fn
    · simp only [List.filterMap_cons, if_pos h, List.map_cons, List.sum_cons, ih]
    · have hz : F fn = 0 := by omega
      have hstep :
          (fn :: rest).filterMap (fun fn => if 0 < F fn then some (fn, F fn) else none)
            = rest.filterMap (fun fn => if 0 < F fn then some (fn, F fn) else none) := by
        simp only [List.filterMap_cons, if_neg h]
      rw [hstep, ih, List.map_cons, List.sum_cons, hz, Nat.zero_add]

theorem filterMap_counts_pos (l : List String) (F : String → Nat) (e : String × Nat)
    (he : e ∈ l.filterMap fun fn => if 0 < F fn then some (fn, F fn) else none) :
    0 < e.2 := by
  rcases List.mem_filterMap.mp he with ⟨fn, _, hfe⟩
  by_cases h : 0 < F fn
  · rw [if_pos h] at hfe
    cases hfe
    exact h
  · rw [if_neg h] at hfe
    cases hfe

/-! ### The record order is total and transitive -/

instance : IsTrans EntityRecord recordLE := by
  refine ⟨fun a b c h1 h2 => ?_⟩
  unfold recordLE at *
  rcases h1 with h1 | ⟨e1, h1⟩ <;> rcases h2 with h2 | ⟨e2, h2⟩
  · exact Or.inl (by omega)
  · exact Or.inl (by omega)
  · exact Or.inl (by omega)
  · refine Or.inr ⟨by omega, ?_⟩
    rcases h1 with h1 | ⟨f1, h1⟩ <;> rcases h2 with h2 | ⟨f2, h2⟩
    · exact Or.inl (lt_trans h1 h2)
    · exact Or.inl (f2 ▸ h1)
    · exact Or.inl (by rw [f1]; exact h2)
    · exact Or.inr ⟨f1.trans f2, le_trans h1 h2⟩

instance : IsTotal EntityRecord recordLE := by
  refine ⟨fun a b => ?_⟩
  unfold recordLE
  rcases Nat.lt_trichotomy a.TOTAL b.TOTAL with h | h | h
  · exact Or.inr (Or.inl h)
  · rcases lt_trichotomy a.lemmaStr b.lemmaStr with h2 | h2 | h2
    · exact Or.inl (Or.inr ⟨h, Or.inl h2⟩)
    · rcases le_total a.key b.key with h3 | h3
      · exact Or.inl (Or.inr ⟨h, Or.inr ⟨h2, h3⟩⟩)
      · exact Or.inr (Or.inr ⟨h.symm, Or.inr ⟨h2.symm, h3⟩⟩)
    · exact Or.inr (Or.inr ⟨h.symm, Or.inl h2⟩)
  · exact Or.inl (Or.inl h)

/-! ### Variation sets stay duplicate-free and free of empty strings -/

/-- Every variation set in the map is duplicate-free and contains no empty
string. -/
def GoodVars (m : List (String × List String)) : Prop :=
  ∀ p ∈ m, p.2.Nodup ∧ "" ∉ p.2

theorem addVar_nodup (vs : List String) (v : String) (h : vs.Nodup) :
    (addVar vs v).Nodup := by
  unfold addVar
  split
  · exact h
  · rename_i hnm
    refine List.Nodup.append h (List.nodup_singleton v) ?_
    intro x hx hx2
    rcases List.mem_singleton.mp hx2 with rfl
    exact hnm hx

theorem mem_addVar (vs : List String) (v x : String) (hx : x ∈ addVar vs v) :
    x ∈ vs ∨ x = v := by
  unfold addVar at hx
  split at hx
  · exact Or.inl hx
  · rcases List.mem_append.mp hx with h1 | h2
    · exact Or.inl h1
    · exact Or.inr (List.mem_singleton.mp h2)

theorem addVar_no_empty (vs : List String) (v : String) (h : "" ∉ vs)
    (hv : v ≠ "") : "" ∉ addVar vs v := by
  intro hmem
  rcases mem_addVar vs v "" hmem with h1 | h2
  · exact h h1
  · exact hv h2.symm

theorem addVarMap_good (m : List (String × List String)) (k v : String)
    (h : GoodVars m) (hv : v ≠ "") : GoodVars (addVarMap m k v) := by
  induction m with
  | nil =>
    intro p hp
    rcases List.mem_singleton.mp hp with rfl
    exact ⟨List.nodup_singleton v, by simp [Ne.symm hv]⟩
  | cons p rest ih =>
    unfold addVarMap
    split
    · intro q hq
      rcases List.mem_cons.mp hq with rfl | hq2
      · have hp := h p (List.mem_cons_self p rest)
        exact ⟨addVar_nodup p.2 v hp.1, addVar_no_empty p.2 v hp.2 hv⟩
      · exact h q (List.mem_cons_of_mem p hq2)
    · intro q hq
      rcases List.mem_cons.mp hq with rfl | hq2
      · exact h q (List.mem_cons_self q rest)
      · exact ih (fun x hx => h x (List.mem_cons_of_mem p hx)) q hq2

theorem scanOcc_vars_good (st : ScanResult) (o : Occ)
    (h : GoodVars st.variations) : GoodVars (scanOcc st o).variations := by
  cases ho : o.key with
  | none => rw [scanOcc_none st o ho]; exact h
  | some key2 =>
    by_cases hke : key2 = ""
    · subst hke; rw [scanOcc_some_empty st o ho]; exact h
    · rw [scanOcc_some st o key2 ho hke]
      simp only
      split
      · rename_i hsurf
        exact addVarMap_good st.variations key2 (surface_from_w o) h hsurf
      · exact h

theorem count_keys_vars_good (occs : List Occ) :
    GoodVars (count_keys_in_file occs).variations := by
  unfold count_keys_in_file
  generalize hst : (⟨[], [], [], []⟩ : ScanResult) = st
  have h0 : GoodVars st.variations := by
    rw [← hst]; intro p hp; cases hp
  clear hst
  induction occs generalizing st with
  | nil => exact h0
  | cons o rest ih => exact ih (scanOcc st o) (scanOcc_vars_good st o h0)

theorem foldVars_good (vs : List String) (m : List (String × List String))
    (k : String) (h : GoodVars m) (hvs : ∀ v ∈ vs, v ≠ "") :
    GoodVars (vs.foldl (fun m2 v => addVarMap m2 k v) m) := by
  induction vs generalizing m with
  | nil => exact h
  | cons v rest ih =>
    rw [List.foldl_cons]
    exact ih (addVarMap m k v) (addVarMap_good m k v h (hvs v (List.mem_cons_self v rest)))
      (fun x hx => hvs x (List.mem_cons_of_mem v hx))

theorem mergeVars_good (g loc : List (String × List String)) (h : GoodVars g)
    (hloc : ∀ p ∈ loc, "" ∉ p.2) : GoodVars (mergeVars g loc) := by
  induction loc generalizing g with
  | nil => exact h
  | cons p rest ih =>
    have hcons : mergeVars g (p :: rest)
        = mergeVars (p.2.foldl (fun m2 v => addVarMap m2 p.1 v) g) rest := rfl
    rw [hcons]
    refine ih _ ?_ (fun q hq => hloc q (List.mem_cons_of_mem p hq))
    refine foldVars_good p.2 g p.1 h ?_
    intro v hv he
    exact hloc p (List.mem_cons_self p rest) (he ▸ hv)

theorem aggregate_vars_good (files : List SourceFile) :
    GoodVars (aggregate files).key_to_variations := by
  unfold aggregate
  generalize hg : (⟨[], [], [], []⟩ : GlobalAcc) = g
  have h0 : GoodVars g.key_to_variations := by
    rw [← hg]; intro p hp; cases hp
  clear hg
  induction files generalizing g with
  | nil => exact h0
  | cons f fs ih =>
    rw [List.foldl_cons]
    refine ih (processFile g f) ?_
    have hpf : (processFile g f).key_to_variations
        = mergeVars g.key_to_variations (count_keys_in_file f.occs).variations := rfl
    rw [hpf]
    exact mergeVars_good _ _ h0 (fun p hp => (count_keys_vars_good f.occs p hp).2)

theorem alookup_mem {α : Type} (m : List (String × α)) (k : String) (v : α)
    (h : alookup m k = some v) : (k, v) ∈ m := by
  induction m with
  | nil => cases h
  | cons p rest ih =>
    unfold alookup at h
    split at h
    · rename_i hpk
      cases h
      rcases p with ⟨k2, v⟩
      cases hpk
      exact List.mem_cons_self _ _
    · exact List.mem_cons_of_mem p (ih h)

theorem sortStrings_sorted (l : List String) :
    List.Sorted (· ≤ ·) (sortStrings l) :=
  List.sorted_insertionSort _ l

theorem sortStrings_perm (l : List String) : (sortStrings l).Perm l :=
  List.perm_insertionSort _ l

/-! ### Determinism of the file order -/

instance : IsTotal XmlFile fileLE := ⟨fun a b => le_total a.name b.name⟩

instance : IsTrans XmlFile fileLE := ⟨fun _ _ _ h1 h2 => le_trans h1 h2⟩

theorem nodup_names_pairwise (s : List XmlFile)
    (h : (s.map XmlFile.name).Nodup) :
    s.Pairwise (fun a b => a.name ≠ b.name) := by
  induction s with
  | nil => exact List.Pairwise.nil
  | cons f rest ih =>
    rw [List.map_cons, List.nodup_cons] at h
    refine List.Pairwise.cons ?_ (ih h.2)
    intro b hb he
    exact h.1 (he ▸ List.mem_map_of_mem XmlFile.name hb)

theorem sortFiles_eq_of_perm (l1 l2 : List XmlFile) (hp : l1.Perm l2)
    (hn : (l1.map XmlFile.name).Nodup) : sortFiles l1 = sortFiles l2 := by
  have hp1 : (sortFiles l1).Perm l1 := List.perm_insertionSort fileLE l1
  have hp2 : (sortFiles l2).Perm l2 := List.perm_insertionSort fileLE l2
  have hperm : (sortFiles l1).Perm (sortFiles l2) :=
    hp1.trans (hp.trans hp2.symm)
  have hn1 : ((sortFiles l1).map XmlFile.name).Nodup :=
    (hp1.map XmlFile.name).symm.nodup hn
  have hn2 : ((sortFiles l2).map XmlFile.name).Nodup :=
    (hp2.map XmlFile.name).symm.nodup ((hp.map XmlFile.name).nodup hn)
  have hs1 : List.Sorted fileLE (sortFiles l1) := List.sorted_insertionSort fileLE l1
  have hs2 : List.Sorted fileLE (sortFiles l2) := List.sorted_insertionSort fileLE l2
  have hlt1 : List.Sorted (fun a b : XmlFile => a.name < b.name) (sortFiles l1) :=
    (hs1.and (nodup_names_pairwise _ hn1)).imp
      (fun hab => lt_of_le_of_ne hab.1 hab.2)
  have hlt2 : List.Sorted (fun a b : XmlFile => a.name < b.name) (sortFiles l2) :=
    (hs2.and (nodup_names_pairwise _ hn2)).imp
      (fun hab => lt_of_le_of_ne hab.1 hab.2)
  have hanti : IsAntisymm XmlFile (fun a b : XmlFile => a.name < b.name) :=
    ⟨fun a b h1 h2 => absurd h2 (lt_asymm h1)⟩
  exact @List.eq_of_perm_of_sorted XmlFile _ hanti _ _ hperm hlt1 hlt2

/-! ### Corpora in which no occurrence carries a key -/

theorem foldl_scan_all_none (occs : List Occ) (st : ScanResult)
    (h : ∀ o ∈ occs, o.key = none) : occs.foldl scanOcc st = st := by
  induction occs generalizing st with
  | nil => rfl
  | cons o rest ih =>
    rw [List.foldl_cons, scanOcc_none st o (h o (List.mem_cons_self o rest))]
    exact ih st (fun x hx => h x (List.mem_cons_of_mem o hx))

theorem count_keys_all_none (occs : List Occ) (h : ∀ o ∈ occs, o.key = none) :
    count_keys_in_file occs = ⟨[], [], [], []⟩ :=
  foldl_scan_all_none occs ⟨[], [], [], []⟩ h

theorem foldl_process_all_none (files : List SourceFile) (g : GlobalAcc)
    (h : ∀ f ∈ files, ∀ o ∈ f.occs, o.key = none) :
    (files.foldl processFile g).per_file_counts
      = g.per_file_counts ++ files.map (fun f => (f.name, [])) := by
  induction files generalizing g with
  | nil => simp
  | cons f fs ih =>
    rw [List.foldl_cons, ih (processFile g f)
      (fun x hx => h x (List.mem_cons_of_mem f hx)),
      processFile_per_file_counts, List.map_cons, List.append_assoc]
    have hloc : (count_keys_in_file f.occs).counts = [] := by
      rw [count_keys_all_none f.occs (h f (List.mem_cons_self f fs))]
    rw [hloc]
    rfl

theorem flatMap_empty_counts (l : List SourceFile) :
    ((l.map fun f => (f.name, ([] : List (String × Nat)))).flatMap
      fun p => p.2.map (·.1)) = [] := by
  induction l with
  | nil => rfl
  | cons f rest ih => simp only [List.map_cons, List.flatMap_cons, List.map_nil,
      List.nil_append]
                      exact ih

/-! ### Claim-side formulations of the lemma-candidate rule -/

/-- The lemma-candidate rule exactly as the specification words it: if at
least one descendant token carries a canonical-form attribute, join the
canonical forms of the tokens that have one; otherwise, if there is at
least one descendant token, join the literal text of every descendant
token; otherwise the empty string. -/
def lemma_candidate_claimed (el : Occ) : String :=
  if el.tokens.any (fun w => w.lemmaAttr.isSome) then
    collapse_spaces (joinSp (el.tokens.filterMap fun w => w.lemmaAttr))
  else if el.tokens ≠ [] then
    collapse_spaces (joinSp (el.tokens.filterMap fun w => w.text))
  else ""

/-- The lemma-candidate rule as the code actually behaves: the first branch
fires only when some descendant token carries a non-empty canonical form
and joins exactly the non-empty canonical forms; the fallback fires only
when some descendant token has a literal-text node and joins all literal
text; otherwise the candidate is empty. -/
def lemma_candidate_amended (el : Occ) : String :=
  if el.tokens.any (fun w => decide (w.lemmaAttr.getD "" ≠ "")) then
    collapse_spaces (joinSp (el.tokens.filterMap fun w =>
      match w.lemmaAttr with
      | some s => if s = "" then none else some s
      | none => none))
  else if el.tokens.any (fun w => w.text.isSome) then
    collapse_spaces (joinSp (el.tokens.filterMap fun w => w.text))
  else ""

theorem tokenLemmaPointwise (w : Token) :
    (match w.lemmaAttr with
      | some s => if s = "" then none else some s
      | none => none) = (none : Option String)
      ↔ decide (w.lemmaAttr.getD "" ≠ "") = false := by
  cases h : w.lemmaAttr with
  | none => simp [Option.getD]
  | some s =>
    by_cases hs : s = "" <;> simp [hs, Option.getD]

theorem wLemmaVals_nil_iff (el : Occ) :
    wLemmaVals el = []
      ↔ el.tokens.any (fun w => decide (w.lemmaAttr.getD "" ≠ "")) = false := by
  unfold wLemmaVals
  rw [List.filterMap_eq_nil_iff, List.any_eq_false]
  constructor
  · intro h w hw
    have := (tokenLemmaPointwise w).mp (h w hw)
    simp only [this, Bool.false_eq_true, not_false_eq_true]
  · intro h w hw
    refine (tokenLemmaPointwise w).mpr ?_
    have := h w hw
    revert this
    cases decide (w.lemmaAttr.getD "" ≠ "") <;> simp

theorem wTextVals_nil_iff (el : Occ) :
    wTextVals el = [] ↔ el.tokens.any (fun w => w.text.isSome) = false := by
  unfold wTextVals
  rw [List.filterMap_eq_nil_iff, List.any_eq_false]
  constructor
  · intro h w hw
    simp [h w hw]
  · intro h w hw
    have := h w hw
    revert this
    cases htx : w.text <;> simp

/-! ### Record field projections -/

theorem mkRecord_lemmaStr (fns : List String) (g : GlobalAcc) (k : String) :
    (mkRecord fns g k).lemmaStr
      = match alookup g.key_to_lemma k with
        | some l => clean_lemma l
        | none => "" := rfl

theorem mkRecord_type (fns : List String) (g : GlobalAcc) (k : String) :
    (mkRecord fns g k).type = (alookup g.key_to_type k).getD "" := rfl

theorem mkRecord_TOTAL (fns : List String) (g : GlobalAcc) (k : String) :
    (mkRecord fns g k).TOTAL
      = (fns.map fun fn => cnt g.per_file_counts fn k).sum := rfl

theorem mkRecord_files (fns : List String) (g : GlobalAcc) (k : String) :
    (mkRecord fns g k).files
      = fns.filterMap fun fn =>
          if 0 < cnt g.per_file_counts fn k then some (fn, cnt g.per_file_counts fn k)
          else none := rfl

theorem mkRecord_variations (fns : List String) (g : GlobalAcc) (k : String) :
    (mkRecord fns g k).variations
      = sortStrings ((alookup g.key_to_variations k).getD []) := rfl

/-! ### Claim theorems -/

/-- C1, counterexample: the emitted `lemma` field is not the raw first
non-empty candidate.  With a single file whose only occurrence has lemma
candidate `"(span) Wien"`, the emitted lemma is `"Wien"`, not the
candidate itself, because `clean_lemma` is applied at assembly time. -/
theorem lemma_field_raw_candidate_counterexample :
    (pipelineFor [⟨"a.xml", [⟨some "k1", none, [⟨some "X", some "(span) Wien"⟩]⟩]⟩]).map
        EntityRecord.lemmaStr = ["Wien"]
      ∧ lemmaResolved [⟨"a.xml", [⟨some "k1", none, [⟨some "X", some "(span) Wien"⟩]⟩]⟩]
          "k1" = some "(span) Wien"
      ∧ ("Wien" : String) ≠ "(span) Wien" := by
  refine ⟨by decide, by decide, by decide⟩

/-- C1, amended: for every emitted record, the `lemma` field equals
`clean_lemma` of the first non-empty lemma candidate derived for the
record's key in file-ascending processing order (first-seen, never
overwritten); the candidate itself is resolved first-seen exactly as
claimed, and only the `"(span) "` cleanup separates it from the emitted
field. -/
theorem lemma_field_eq_clean_first_candidate (files : List SourceFile)
    (r : EntityRecord) (hr : r ∈ pipelineFor files) :
    r.lemmaStr = clean_lemma ((lemmaResolved files r.key).getD "") := by
  rcases mem_pipelineFor hr with ⟨k, hk, rfl⟩
  rw [mkRecord_key, mkRecord_lemmaStr,
    aggregate_key_to_lemma files k (keysFrom_ne_empty files k hk)]
  cases lemmaResolved files k with
  | none => rfl
  | some l => rfl

theorem lemma_field_eq_clean_first_candidate_witness :
    (⟨"k1", "Wien", "", 1, [("a.xml", 1)], ["X"]⟩ : EntityRecord).lemmaStr
      = clean_lemma
          ((lemmaResolved [⟨"a.xml", [⟨some "k1", none, [⟨some "X", some "Wien"⟩]⟩]⟩]
            (⟨"k1", "Wien", "", 1, [("a.xml", 1)], ["X"]⟩ : EntityRecord).key).getD "") :=
  lemma_field_eq_clean_first_candidate _ _ (by decide)

/-- C2: for every emitted record, `TOTAL` equals the sum of the counts in
its `files` list, and every entry of `files` has a strictly positive
count. -/
theorem total_eq_sum_files_and_pos (files : List SourceFile) (r : EntityRecord)
    (hr : r ∈ pipelineFor files) :
    r.TOTAL = (r.files.map (·.2)).sum ∧ ∀ e ∈ r.files, 0 < e.2 := by
  rcases mem_pipelineFor hr with ⟨k, hk, rfl⟩
  rw [mkRecord_TOTAL, mkRecord_files]
  constructor
  · exact (sum_filterMap_counts _ _).symm
  · intro e he
    exact filterMap_counts_pos _ _ e he

theorem total_eq_sum_files_and_pos_witness :
    ((⟨"k1", "Wien", "", 2, [("a.xml", 2)], ["X"]⟩ : EntityRecord).TOTAL
        = ((⟨"k1", "Wien", "", 2, [("a.xml", 2)], ["X"]⟩ : EntityRecord).files.map
            (·.2)).sum)
      ∧ ∀ e ∈ (⟨"k1", "Wien", "", 2, [("a.xml", 2)], ["X"]⟩ : EntityRecord).files,
          0 < e.2 :=
  total_eq_sum_files_and_pos
    [⟨"a.xml", [⟨some "k1", none, [⟨some "X", some "Wien"⟩]⟩,
                ⟨some "k1", none, [⟨some "X", some "Wien"⟩]⟩]⟩] _ (by decide)

/-- C3: the emitted record list is sorted by the total order
(TOTAL descending, then lemma ascending, then key ascending): every
adjacent pair satisfies `recordLE`. -/
theorem records_sorted_chain (files : List SourceFile) :
    List.Chain' recordLE (pipelineFor files) := by
  unfold pipelineFor assemble_records
  split
  · exact List.chain'_nil
  · exact (List.sorted_insertionSort recordLE _).chain'

/-- C4, counterexample: a token whose canonical-form attribute is present
but empty.  The claim's rule (branch on attribute presence) yields the
empty string, but the code treats the empty attribute as absent and falls
back to the literal text, yielding `"Wien"`. -/
theorem lemma_candidate_claimed_counterexample :
    build_lemma_from_w (⟨some "k1", none, [⟨some "Wien", some ""⟩]⟩ : Occ) = "Wien"
      ∧ lemma_candidate_claimed (⟨some "k1", none, [⟨some "Wien", some ""⟩]⟩ : Occ) = ""
      ∧ ("Wien" : String) ≠ "" := by
  refine ⟨by decide, by decide, by decide⟩

/-- C4, amended: the per-occurrence lemma candidate equals the three-branch
rule with the branch conditions read on non-empty canonical forms and on
the presence of literal-text nodes: if some descendant token carries a
non-empty canonical form, join exactly the non-empty canonical forms in
document order; otherwise, if some descendant token has a literal-text
node, join all literal text; otherwise the empty string. -/
theorem build_lemma_amended_correct (el : Occ) :
    build_lemma_from_w el = lemma_candidate_amended el := by
  unfold build_lemma_from_w lemma_candidate_amended
  by_cases h1 : wLemmaVals el = []
  · have ha1 : (el.tokens.any fun w => decide (w.lemmaAttr.getD "" ≠ "")) = false :=
      (wLemmaVals_nil_iff el).mp h1
    have hA1 : ¬ ((el.tokens.any fun w => decide (w.lemmaAttr.getD "" ≠ "")) = true) := by
      rw [ha1]; exact Bool.false_ne_true
    rw [if_neg (not_not_intro h1), if_neg hA1]
    by_cases h2 : wTextVals el = []
    · have ha2 : (el.tokens.any fun w => w.text.isSome) = false :=
        (wTextVals_nil_iff el).mp h2
      have hA2 : ¬ ((el.tokens.any fun w => w.text.isSome) = true) := by
        rw [ha2]; exact Bool.false_ne_true
      rw [if_neg (not_not_intro h2), if_neg hA2]
    · have hA2 : (el.tokens.any fun w => w.text.isSome) = true := by
        cases hx : el.tokens.any fun w => w.text.isSome with
        | false => exact absurd ((wTextVals_nil_iff el).mpr hx) h2
        | true => rfl
      rw [if_pos h2, if_pos hA2]
      rfl
  · have hA1 : (el.tokens.any fun w => decide (w.lemmaAttr.getD "" ≠ "")) = true := by
      cases hx : el.tokens.any fun w => decide (w.lemmaAttr.getD "" ≠ "") with
      | false => exact absurd ((wLemmaVals_nil_iff el).mpr hx) h1
      | true => rfl
    rw [if_pos h1, if_pos hA1]
    rfl

/-- C5: for every emitted record, the `type` field equals the two-phase
resolution of the record's key: locally the first non-empty type attribute
among the key's occurrences of a document, globally the local value of the
first document to supply one, and the empty string when no document
does. -/
theorem type_field_two_phase (files : List SourceFile) (r : EntityRecord)
    (hr : r ∈ pipelineFor files) :
    r.type = (typeResolvedTwoPhase files r.key).getD "" := by
  rcases mem_pipelineFor hr with ⟨k, hk, rfl⟩
  rw [mkRecord_key, mkRecord_type,
    aggregate_key_to_type files k (keysFrom_ne_empty files k hk)]

theorem type_field_two_phase_witness :
    (⟨"k1", "Wien", "city", 2, [("a.xml", 1), ("b.xml", 1)], ["W"]⟩
        : EntityRecord).type
      = (typeResolvedTwoPhase
          [⟨"a.xml", [⟨some "k1", some "", [⟨some "W", some "Wien"⟩]⟩]⟩,
           ⟨"b.xml", [⟨some "k1", some "city", [⟨some "W", some "Wien"⟩]⟩]⟩]
          (⟨"k1", "Wien", "city", 2, [("a.xml", 1), ("b.xml", 1)], ["W"]⟩
            : EntityRecord).key).getD "" :=
  type_field_two_phase _ _ (by decide)

/-- C6: an occurrence without a key attribute leaves the scan state
untouched — it contributes nothing to counts, lemma, variations or type —
and every emitted record has a non-empty `key`. -/
theorem keyless_dropped_and_keys_nonempty :
    (∀ (st : ScanResult) (o : Occ), o.key = none → scanOcc st o = st)
      ∧ ∀ (files : List SourceFile) (r : EntityRecord),
          r ∈ pipelineFor files → r.key ≠ "" := by
  constructor
  · exact fun st o h => scanOcc_none st o h
  · intro files r hr
    rcases mem_pipelineFor hr with ⟨k, hk, rfl⟩
    rw [mkRecord_key]
    exact keysFrom_ne_empty files k hk

theorem keyless_dropped_and_keys_nonempty_witness :
    scanOcc ⟨[], [], [], []⟩ (⟨none, some "t", [⟨some "X", none⟩]⟩ : Occ)
        = ⟨[], [], [], []⟩
      ∧ (⟨"k9", "Linz", "", 1, [("c.xml", 1)], ["L"]⟩ : EntityRecord).key ≠ "" :=
  ⟨keyless_dropped_and_keys_nonempty.1 _ _ rfl,
   keyless_dropped_and_keys_nonempty.2
     [⟨"c.xml", [⟨some "k9", none, [⟨some "L", some "Linz"⟩]⟩]⟩] _ (by decide)⟩

/-- C7: for every emitted record, `variations` is sorted ascending,
duplicate-free and contains no empty string. -/
theorem variations_sorted_nodup_no_empty (files : List SourceFile)
    (r : EntityRecord) (hr : r ∈ pipelineFor files) :
    List.Sorted (· ≤ ·) r.variations ∧ r.variations.Nodup ∧ "" ∉ r.variations := by
  rcases mem_pipelineFor hr with ⟨k, hk, rfl⟩
  rw [mkRecord_variations]
  have hgood : ((alookup (aggregate files).key_to_variations k).getD []).Nodup
      ∧ "" ∉ ((alookup (aggregate files).key_to_variations k).getD []) := by
    cases hal : alookup (aggregate files).key_to_variations k with
    | none => exact ⟨List.nodup_nil, List.not_mem_nil ""⟩
    | some vs => exact aggregate_vars_good files (k, vs) (alookup_mem _ _ _ hal)
  refine ⟨sortStrings_sorted _, (sortStrings_perm _).symm.nodup hgood.1, ?_⟩
  intro hmem
  exact hgood.2 ((sortStrings_perm _).mem_iff.mp hmem)

theorem variations_sorted_nodup_no_empty_witness :
    List.Sorted (· ≤ ·)
        (⟨"k1", "Wien", "", 2, [("a.xml", 2)], ["Wein", "Wien"]⟩
          : EntityRecord).variations
      ∧ (⟨"k1", "Wien", "", 2, [("a.xml", 2)], ["Wein", "Wien"]⟩
          : EntityRecord).variations.Nodup
      ∧ "" ∉ (⟨"k1", "Wien", "", 2, [("a.xml", 2)], ["Wein", "Wien"]⟩
          : EntityRecord).variations :=
  variations_sorted_nodup_no_empty
    [⟨"a.xml", [⟨some "k1", none, [⟨some "Wien", none⟩]⟩,
                ⟨some "k1", none, [⟨some "Wein", none⟩]⟩]⟩] _ (by decide)

/-- C8: the pipeline is deterministic — the output depends only on the set
of discovered input files, not on the order discovery presents them in,
because the files are sorted name-ascending before processing; in
particular two runs on the same corpus produce identical record lists. -/
theorem pipeline_deterministic (l1 l2 : List XmlFile) (hp : l1.Perm l2)
    (hn : (l1.map XmlFile.name).Nodup) : runAll l1 = runAll l2 := by
  unfold runAll
  rw [sortFiles_eq_of_perm l1 l2 hp hn]

theorem pipeline_deterministic_witness :
    runAll [⟨"b.xml", [], [⟨some "p1", none, [⟨some "T", none⟩]⟩]⟩,
            ⟨"a.xml", [⟨some "k1", none, [⟨some "X", some "Wien"⟩]⟩], []⟩]
      = runAll [⟨"a.xml", [⟨some "k1", none, [⟨some "X", some "Wien"⟩]⟩], []⟩,
                ⟨"b.xml", [], [⟨some "p1", none, [⟨some "T", none⟩]⟩]⟩] :=
  pipeline_deterministic _ _ (List.Perm.swap _ _ _) (by decide)

/-- C9: a corpus in which every occurrence of the kind lacks a key
attribute yields the empty record list for that kind; missing keys are
silently excluded from all state rather than raising errors. -/
theorem all_keyless_empty_output (files : List SourceFile)
    (h : ∀ f ∈ files, ∀ o ∈ f.occs, o.key = none) : pipelineFor files = [] := by
  have hkeys : keysFrom (aggregate files) = [] := by
    unfold keysFrom aggregate
    rw [foldl_process_all_none files ⟨[], [], [], []⟩ h]
    have hinit : (⟨[], [], [], []⟩ : GlobalAcc).per_file_counts = [] := rfl
    rw [hinit, List.nil_append, flatMap_empty_counts]
    rfl
  unfold pipelineFor assemble_records
  rw [if_pos hkeys]

theorem all_keyless_empty_output_witness :
    pipelineFor [⟨"a.xml", [⟨none, some "t", [⟨some "X", some "W"⟩]⟩]⟩] = [] :=
  all_keyless_empty_output _ (by decide)

/-- C10, counterexample: removal of `"(span) "` is a single left-to-right
non-overlapping pass, so it can juxtapose fragments into a fresh
`"(span) "` occurrence: a first-seen candidate `"(span(span) ) x"` is
emitted as `"(span) x"`, which still contains the substring `"(span) "` —
refuting the claim that no emitted lemma ever contains it. -/
theorem clean_lemma_respawn_counterexample :
    (pipelineFor [⟨"a.xml",
        [⟨some "k1", none, [⟨some "X", some "(span(span) ) x"⟩]⟩]⟩]).map
        EntityRecord.lemmaStr = ["(span) x"]
      ∧ "(span) x" = "(span) " ++ "x" :=
  ⟨by decide, by decide⟩

/-- C10, amended: every emitted `lemma` equals the stored first-seen
candidate with `"(span) "` occurrences removed in one left-to-right
non-overlapping pass — every occurrence, not only a leading prefix — but
the removal may itself create a new `"(span) "` occurrence, so emitted
lemmas are not guaranteed to be free of the substring. -/
theorem lemma_field_eq_clean_stored (files : List SourceFile) (r : EntityRecord)
    (hr : r ∈ pipelineFor files) :
    r.lemmaStr
      = clean_lemma ((alookup (aggregate files).key_to_lemma r.key).getD "") := by
  rcases mem_pipelineFor hr with ⟨k, hk, rfl⟩
  rw [mkRecord_key, mkRecord_lemmaStr]
  cases alookup (aggregate files).key_to_lemma k with
  | none => rfl
  | some l => rfl

theorem lemma_field_eq_clean_stored_witness :
    (⟨"k2", "Graz", "", 1, [("b.xml", 1)], ["G"]⟩ : EntityRecord).lemmaStr
      = clean_lemma
          ((alookup
            (aggregate
              [⟨"b.xml", [⟨some "k2", none, [⟨some "G", some "(span) Graz"⟩]⟩]⟩]).key_to_lemma
            (⟨"k2", "Graz", "", 1, [("b.xml", 1)], ["G"]⟩ : EntityRecord).key).getD "") :=
  lemma_field_eq_clean_stored _ _ (by decide)
